import Mathlib

/-!
# Verification of the `search_engine` ranking core

Shallow embedding of `src/search_engine/search_engine.py`.

Conventions of the embedding:
* Python strings are `String`; text is manipulated through its list of
  characters (`String.data`).  `str.lower()` is modelled by mapping
  `Char.toLower` over the characters (ASCII case mapping, which is what the
  documents and identifiers in this repository use).
* The regex scan `re.findall(r"\w+", text)` is modelled by `findWords`, a
  left-to-right scanner that accumulates maximal runs of word characters.
  Word characters are letters, digits and the underscore.
* Python `dict`s are modelled as insertion-ordered association lists:
  `alist_insert` updates an existing key in place and appends a fresh key at
  the end, exactly like CPython dict assignment.
* The Python `set` of candidate ids is iterated in an unspecified order; the
  embedding enumerates it deterministically in first-discovery order.  The
  final output of `search` does not depend on this choice because the sort
  key `(-match_count, -total_occurrences, id)` is injective on the candidate
  list (its ids are distinct).
* `sorted(..., key=...)` is modelled by the stable `List.mergeSort` with the
  corresponding total preorder `ranking_le`.
-/

/-- A word character for the purpose of `re.findall(r"\w+", ...)`:
letters, digits or the underscore. -/
def isWordChar (c : Char) : Bool :=
  c.isAlphanum || c == '_'

/-- Scanner behind `re.findall(r"\w+", s)`: collects the maximal runs of
word characters of `cs`, left to right.  `acc` holds the (reversed) run
currently being read. -/
def findWords : List Char → List Char → List (List Char)
  | [], acc => if acc = [] then [] else [acc.reverse]
  | c :: cs, acc =>
    if isWordChar c then findWords cs (c :: acc)
    else if acc = [] then findWords cs [] else acc.reverse :: findWords cs []

/-- `_preprocessing_text`: lowercase, take the maximal word-character runs,
drop every token shorter than 4 characters. -/
def preprocessing_text (text : String) : List String :=
  ((findWords (text.data.map Char.toLower) []).filter
      (fun w => 4 ≤ w.length)).map (fun w => String.mk w)

/-- The `Doc` dataclass: identifier and raw text. -/
structure Doc where
  id : String
  text : String
deriving DecidableEq, Repr

/-- The `_ProcessingDoc` dataclass: identifier plus tokenized text. -/
structure ProcessingDoc where
  id : String
  tokens : List String
deriving DecidableEq, Repr

/-- `_preprocessing`, specialized to typed `Doc` records (the `dict` input
shape is handled by `preprocessing_any` below). -/
def preprocessing (docs : List Doc) : List ProcessingDoc :=
  docs.map (fun d => ⟨d.id, preprocessing_text d.text⟩)

/-- Lookup in an insertion-ordered association list (Python `d[k]` /
`d.get(k)`). -/
def alist_find {β : Type} : List (String × β) → String → Option β
  | [], _ => none
  | (k₂, v) :: rest, k => if k = k₂ then some v else alist_find rest k

/-- In-place update of one binding: the pair whose key is `k` becomes
`(k, v)`, every other pair is unchanged. -/
def subst_pair {β : Type} (k : String) (v : β) (p : String × β) : String × β :=
  if p.1 = k then (k, v) else p

/-- Python dict assignment `d[k] = v`: update the key in place when present,
append it at the end otherwise. -/
def alist_insert {β : Type} (m : List (String × β)) (k : String) (v : β) :
    List (String × β) :=
  if (alist_find m k).isSome then m.map (subst_pair k v)
  else m ++ [(k, v)]

/-- The keys of an association list, in order. -/
def alist_keys {β : Type} (m : List (String × β)) : List String :=
  m.map Prod.fst

/-- The inverted index: term ↦ (document id ↦ term frequency). -/
abbrev Index := List (String × List (String × Nat))

/-- One `index[term][doc_id] = cnt` assignment (with the `defaultdict(dict)`
behavior for a missing term). -/
def index_set (idx : Index) (t i : String) (c : Nat) : Index :=
  alist_insert idx t (alist_insert ((alist_find idx t).getD []) i c)

/-- Processing one document inside `_build_inverted_index`: iterate over
`Counter(tokens).items()` — the distinct tokens in first-occurrence order,
each with its count — and store each count. -/
def index_add_doc (idx : Index) (i : String) (toks : List String) : Index :=
  toks.dedup.foldl (fun acc t => index_set acc t i (toks.count t)) idx

/-- `_build_inverted_index` over typed `Doc` records. -/
def build_inverted_index (docs : List Doc) : Index :=
  docs.foldl (fun idx d => index_add_doc idx d.id (preprocessing_text d.text)) []

/-- The cell `index[t][i]` of an index, as an `Option`. -/
def index_entry (idx : Index) (t i : String) : Option Nat :=
  alist_find ((alist_find idx t).getD []) i

/-- Accumulation of one id into the candidate set, keeping first-discovery
order. -/
def ounion_step (acc : List String) (i : String) : List String :=
  if i ∈ acc then acc else acc ++ [i]

/-- `_get_candidates_by_index`: union the posting ids of every query token,
then map the ids back to processed documents through the `id_to_doc` dict
(built with last-write-wins on duplicate ids). -/
def get_candidates_by_index (idx : Index) (query_tokens : List String)
    (processed_docs : List ProcessingDoc) : List ProcessingDoc :=
  let candidate_ids := query_tokens.foldl
    (fun acc token => (alist_keys ((alist_find idx token).getD [])).foldl ounion_step acc) []
  let id_to_doc := processed_docs.foldl (fun m d => alist_insert m d.id d) []
  candidate_ids.filterMap (fun i => alist_find id_to_doc i)

/-- The `_RankedDoc` dataclass. -/
structure RankedDoc where
  id : String
  tokens : List String
  match_count : Nat
  total_occurrences : Nat
deriving DecidableEq, Repr

/-- Substring test `needle in hay` on Python strings. -/
def str_contains (hay needle : String) : Bool :=
  hay.data.tails.any (fun suf => needle.data.isPrefixOf suf)

/-- The body of the loop of `_calculate_rank` for one document.  Membership
in `set(query_tokens)` is membership in `query_tokens`. -/
def rank_doc (query_tokens : List String) (doc : ProcessingDoc) : RankedDoc :=
  if str_contains doc.id "spam" then ⟨doc.id, doc.tokens, 0, 0⟩
  else
    let found_tokens := doc.tokens.filter (fun token => query_tokens.contains token)
    ⟨doc.id, doc.tokens, found_tokens.dedup.length, found_tokens.length⟩

/-- `_calculate_rank`. -/
def calculate_rank (docs : List ProcessingDoc) (query_tokens : List String) :
    List RankedDoc :=
  docs.map (rank_doc query_tokens)

/-- The total preorder behind `sorted(docs, key=lambda doc:
(-doc.match_count, -doc.total_occurrences, doc.id))`. -/
def ranking_le (a b : RankedDoc) : Bool :=
  if a.match_count = b.match_count then
    if a.total_occurrences = b.total_occurrences then decide (a.id ≤ b.id)
    else decide (b.total_occurrences < a.total_occurrences)
  else decide (b.match_count < a.match_count)

/-- `_sort_ranked_docs`: Python `sorted` is a stable sort. -/
def sort_ranked_docs (docs : List RankedDoc) : List RankedDoc :=
  docs.mergeSort ranking_le

/-- `search` over typed `Doc` records. -/
def search (docs : List Doc) (query : String) : List String :=
  let processed_docs := preprocessing docs
  let query_tokens := preprocessing_text query
  if query_tokens.isEmpty then []
  else
    let index := build_inverted_index docs
    let candidates := get_candidates_by_index index query_tokens processed_docs
    if candidates.isEmpty then []
    else (sort_ranked_docs (calculate_rank candidates query_tokens)).map (fun d => d.id)

/-- The candidate list produced inside `search docs query`. -/
def candidates_of (docs : List Doc) (query : String) : List ProcessingDoc :=
  get_candidates_by_index (build_inverted_index docs) (preprocessing_text query)
    (preprocessing docs)

/-- The ranked candidate list produced inside `search docs query`. -/
def ranked_of (docs : List Doc) (query : String) : List RankedDoc :=
  calculate_rank (candidates_of docs query) (preprocessing_text query)

/-- The sorted ranked list produced inside `search docs query`. -/
def sorted_of (docs : List Doc) (query : String) : List RankedDoc :=
  sort_ranked_docs (ranked_of docs query)

/-- A document record as the dynamically typed Python code receives it:
either the `Doc` dataclass or a `dict`. -/
inductive AnyDoc where
  | typed : Doc → AnyDoc
  | dict : List (String × String) → AnyDoc
deriving DecidableEq, Repr

/-- Extraction of the identifier: `doc["id"] if isinstance(doc, dict) else
doc.id`.  A missing key is a `KeyError`, modelled as `none`. -/
def any_id : AnyDoc → Option String
  | .typed d => some d.id
  | .dict m => alist_find m "id"

/-- Extraction of the text, like `any_id`. -/
def any_text : AnyDoc → Option String
  | .typed d => some d.text
  | .dict m => alist_find m "text"

/-- `_preprocessing` over dynamically typed records. -/
def preprocessing_any (docs : List AnyDoc) : Option (List ProcessingDoc) :=
  docs.mapM (fun d => do
    let i ← any_id d
    let t ← any_text d
    pure ⟨i, preprocessing_text t⟩)

/-- `_build_inverted_index` over dynamically typed records. -/
def build_inverted_index_any (docs : List AnyDoc) : Option Index :=
  docs.foldlM (fun idx d => do
    let i ← any_id d
    let t ← any_text d
    pure (index_add_doc idx i (preprocessing_text t))) []

/-- `search` over dynamically typed records, the shape the Python function
actually has.  `none` is an uncaught `KeyError` on a malformed record. -/
def search_any (docs : List AnyDoc) (query : String) : Option (List String) := do
  let processed_docs ← preprocessing_any docs
  let query_tokens := preprocessing_text query
  if query_tokens.isEmpty then pure []
  else do
    let index ← build_inverted_index_any docs
    let candidates := get_candidates_by_index index query_tokens processed_docs
    if candidates.isEmpty then pure []
    else pure ((sort_ranked_docs (calculate_rank candidates query_tokens)).map (fun d => d.id))

/-- Encode a typed document either as the dataclass or as the dictionary
`{"id": ..., "text": ...}` with the same field values. -/
def encode_doc (b : Bool) (d : Doc) : AnyDoc :=
  if b then .dict [("id", d.id), ("text", d.text)] else .typed d

/-- Modelled from the spec (§4.1): the tokens of a text are the maximal runs
of word characters of the lowercased text ("scan the lowercased input for
maximal runs of word characters").  `split_runs p` splits a character list at
the characters satisfying `p`, dropping them; the nonempty chunks are exactly
the maximal runs of characters not satisfying `p`. -/
def split_runs (p : Char → Bool) : List Char → List (List Char)
  | [] => [[]]
  | c :: cs => if p c then [] :: split_runs p cs
               else (split_runs p cs).modifyHead (fun r => c :: r)

/-- Modelled from the spec (§4.1): tokenization as the spec words it — the
maximal word-character runs of the lowercased input, every run shorter than
4 characters discarded, in left-to-right order. -/
def spec_tokenize (text : String) : List String :=
  ((split_runs (fun c => !(isWordChar c)) (text.data.map Char.toLower)).map
      (fun w => String.mk w)).filter (fun s => 4 ≤ s.length)

/-- Modelled from the spec (§4.4): the per-document rank with the two
components written the way the spec describes them — the number of distinct
query tokens occurring in the document and the total number of occurrences
of query tokens in the document (summed over the distinct query tokens). -/
def spec_rank_doc (query_tokens : List String) (doc : ProcessingDoc) : RankedDoc :=
  if str_contains doc.id "spam" then ⟨doc.id, doc.tokens, 0, 0⟩
  else
    ⟨doc.id, doc.tokens,
      (query_tokens.toFinset.filter (fun t => t ∈ doc.tokens)).card,
      ∑ t in query_tokens.toFinset, doc.tokens.count t⟩

/-- `df` of a term: the size of its postings map in the inverted index. -/
def doc_freq (docs : List Doc) (t : String) : Nat :=
  ((alist_find (build_inverted_index docs) t).getD []).length

/-- Modelled from the spec (§4.4): the TF-IDF score the spec claims for a
document — the sum over the distinct query tokens of
`tf * (ln((N + 1) / (df + 1)) + 1)` with `tf` the raw occurrence count in the
document and `N` the corpus size.  `tfidf_gt docs q d₁ d₂` states that `d₁`
strictly outscores `d₂` under that formula. -/
def tfidf_gt (docs : List Doc) (query : String) (d₁ d₂ : Doc) : Prop :=
  (((preprocessing_text query).dedup).map (fun t =>
    ((preprocessing_text d₂.text).count t : ℝ) *
      (Real.log (((docs.length : ℝ) + 1) / ((doc_freq docs t : ℝ) + 1)) + 1))).sum
  <
  (((preprocessing_text query).dedup).map (fun t =>
    ((preprocessing_text d₁.text).count t : ℝ) *
      (Real.log (((docs.length : ℝ) + 1) / ((doc_freq docs t : ℝ) + 1)) + 1))).sum

/-- The two-document corpus of the C1 counterexample. -/
def cex_doc1 : Doc := ⟨"1", "aaaa aaaa aaaa aaaa aaaa"⟩

/-- Second document of the C1 counterexample corpus. -/
def cex_doc2 : Doc := ⟨"2", "aaaa bbbb"⟩

/-- The corpus of the C1 counterexample. -/
def cex_docs : List Doc := [cex_doc1, cex_doc2]

/-- The `candidate_ids` set of `_get_candidates_by_index`, in the embedding's
first-discovery enumeration order. -/
def candidate_ids_list (idx : Index) (query_tokens : List String) : List String :=
  query_tokens.foldl
    (fun acc token => (alist_keys ((alist_find idx token).getD [])).foldl ounion_step acc) []

/-- The `id_to_doc` dict of `_get_candidates_by_index`. -/
def id_to_doc_dict (processed_docs : List ProcessingDoc) :
    List (String × ProcessingDoc) :=
  processed_docs.foldl (fun m d => alist_insert m d.id d) []

/-- Strictly greater relevance: the score pair `(match_count,
total_occurrences)` is lexicographically greater. -/
def score_gt (a b : RankedDoc) : Prop :=
  b.match_count < a.match_count ∨
    (a.match_count = b.match_count ∧ b.total_occurrences < a.total_occurrences)

/-- The ordering contract of the final output: earlier entries either score
strictly higher, or score equal and carry a strictly smaller identifier. -/
def final_order (a b : RankedDoc) : Prop :=
  score_gt a b ∨
    (a.match_count = b.match_count ∧ a.total_occurrences = b.total_occurrences ∧
      a.id < b.id)

/-- Python `str.upper()` (ASCII case mapping, as `str.lower()` is modelled). -/
def up_text (s : String) : String :=
  ⟨s.data.map Char.toUpper⟩

/-- Python `str.lower()` as a transformation on input strings. -/
def low_text (s : String) : String :=
  ⟨s.data.map Char.toLower⟩

/-! ## Association-list lemmas -/

theorem alist_find_append {β : Type} (m₁ m₂ : List (String × β)) (k : String) :
    alist_find (m₁ ++ m₂) k = ((alist_find m₁ k).or (alist_find m₂ k)) := by
  induction m₁ with
  | nil => simp [alist_find]
  | cons p rest ih =>
    obtain ⟨k₂, v⟩ := p
    by_cases h : k = k₂
    · simp [alist_find, h]
    · simp [alist_find, h, ih]

theorem alist_find_map_subst_of_ne {β : Type} (m : List (String × β)) (k k' : String)
    (v : β) (h : k' ≠ k) :
    alist_find (m.map (subst_pair k v)) k' = alist_find m k' := by
  induction m with
  | nil => simp [alist_find]
  | cons p rest ih =>
    obtain ⟨k₂, w⟩ := p
    rw [List.map_cons]
    by_cases hk : k₂ = k
    · rw [show subst_pair k v (k₂, w) = (k, v) from if_pos hk]
      rw [show alist_find ((k, v) :: rest.map (subst_pair k v)) k' =
            alist_find (rest.map (subst_pair k v)) k' from by
          simp [alist_find, h]]
      rw [show alist_find ((k₂, w) :: rest) k' = alist_find rest k' from by
          simp [alist_find, hk ▸ h]]
      exact ih
    · rw [show subst_pair k v (k₂, w) = (k₂, w) from if_neg hk]
      by_cases h2 : k' = k₂
      · simp [alist_find, h2]
      · simp [alist_find, h2, ih]

theorem alist_find_map_subst_self {β : Type} (m : List (String × β)) (k : String)
    (v : β) (h : (alist_find m k).isSome) :
    alist_find (m.map (subst_pair k v)) k = some v := by
  induction m with
  | nil => simp [alist_find] at h
  | cons p rest ih =>
    obtain ⟨k₂, w⟩ := p
    rw [List.map_cons]
    by_cases hk : k₂ = k
    · rw [show subst_pair k v (k₂, w) = (k, v) from if_pos hk]
      simp [alist_find]
    · have hk' : k ≠ k₂ := fun hh => hk hh.symm
      simp only [alist_find, if_neg hk'] at h
      rw [show subst_pair k v (k₂, w) = (k₂, w) from if_neg hk]
      simp [alist_find, hk', ih h]

theorem alist_find_insert {β : Type} (m : List (String × β)) (k k' : String) (v : β) :
    alist_find (alist_insert m k v) k' = if k' = k then some v else alist_find m k' := by
  unfold alist_insert
  by_cases hs : (alist_find m k).isSome
  · rw [if_pos hs]
    by_cases h : k' = k
    · subst h
      rw [if_pos rfl]
      exact alist_find_map_subst_self m k' v hs
    · rw [if_neg h]
      exact alist_find_map_subst_of_ne m k k' v h
  · rw [if_neg hs, alist_find_append]
    by_cases h : k' = k
    · subst h
      cases hfind : alist_find m k' with
      | none => simp [alist_find]
      | some w => exact absurd (by simp [hfind]) hs
    · cases hfind : alist_find m k' with
      | none => simp [alist_find, h]
      | some w => simp [h]

theorem alist_find_isSome_iff_mem_keys {β : Type} (m : List (String × β)) (k : String) :
    (alist_find m k).isSome ↔ k ∈ alist_keys m := by
  induction m with
  | nil => simp [alist_find, alist_keys]
  | cons p rest ih =>
    obtain ⟨k₂, v⟩ := p
    by_cases h : k = k₂
    · simp [alist_find, alist_keys, h]
    · simp [alist_find, alist_keys, h, ih]

/-! ## Overwriting folds

Both the `id_to_doc` dict and each cell of the inverted index are built by
left folds of the shape "if this element is responsible for the cell,
overwrite the accumulator".  These lemmas characterize such folds. -/

theorem foldl_overwrite_skip {β γ : Type} (cond : β → Prop) [DecidablePred cond]
    (val : β → γ) (l : List β) (acc : Option γ) (h : ∀ d ∈ l, ¬ cond d) :
    l.foldl (fun a d => if cond d then some (val d) else a) acc = acc := by
  induction l generalizing acc with
  | nil => rfl
  | cons d rest ih =>
    rw [List.foldl_cons, if_neg (h d (by simp))]
    exact ih acc (fun d' hd' => h d' (by simp [hd']))

theorem foldl_overwrite_isSome {β γ : Type} (cond : β → Prop) [DecidablePred cond]
    (val : β → γ) (l : List β) (acc : Option γ) :
    (l.foldl (fun a d => if cond d then some (val d) else a) acc).isSome
      ↔ acc.isSome ∨ ∃ d ∈ l, cond d := by
  induction l generalizing acc with
  | nil => simp
  | cons d rest ih =>
    rw [List.foldl_cons, ih]
    by_cases h : cond d <;> simp [h]

theorem foldl_overwrite_some {β γ : Type} (cond : β → Prop) [DecidablePred cond]
    (val : β → γ) (l : List β) (acc : Option γ) (v : γ)
    (h : l.foldl (fun a d => if cond d then some (val d) else a) acc = some v) :
    (∃ d ∈ l, cond d ∧ val d = v) ∨ acc = some v := by
  induction l generalizing acc with
  | nil => exact Or.inr h
  | cons d rest ih =>
    rw [List.foldl_cons] at h
    rcases ih _ h with hmem | hacc
    · obtain ⟨d', hd', hc, hv⟩ := hmem
      exact Or.inl ⟨d', by simp [hd'], hc, hv⟩
    · by_cases hc : cond d
      · rw [if_pos hc] at hacc
        exact Or.inl ⟨d, by simp, hc, Option.some_inj.mp hacc⟩
      · rw [if_neg hc] at hacc
        exact Or.inr hacc

theorem foldl_overwrite_unique {β γ : Type} (cond : β → Prop) [DecidablePred cond]
    (val : β → γ) (l : List β) (acc : Option γ) (d : β) (hd : d ∈ l) (hc : cond d)
    (huniq : ∀ d' ∈ l, cond d' → d' = d) :
    l.foldl (fun a d => if cond d then some (val d) else a) acc = some (val d) := by
  induction l generalizing acc with
  | nil => cases hd
  | cons d₀ rest ih =>
    rw [List.foldl_cons]
    rcases List.mem_cons.mp hd with rfl | hmem
    · by_cases hrest : d ∈ rest
      · exact ih _ hrest (fun d' hd' hc' => huniq d' (List.mem_cons_of_mem _ hd') hc')
      · rw [if_pos hc]
        exact foldl_overwrite_skip _ _ _ _
          (fun d' hd' hc' => hrest ((huniq d' (List.mem_cons_of_mem _ hd') hc') ▸ hd'))
    · exact ih _ hmem (fun d' hd' hc' => huniq d' (List.mem_cons_of_mem _ hd') hc')

/-! ## The `id_to_doc` dict -/

theorem alist_find_dict_fold (l : List ProcessingDoc)
    (m₀ : List (String × ProcessingDoc)) (i : String) :
    alist_find (l.foldl (fun m d => alist_insert m d.id d) m₀) i
      = l.foldl (fun a d => if d.id = i then some d else a) (alist_find m₀ i) := by
  induction l generalizing m₀ with
  | nil => rfl
  | cons d rest ih =>
    rw [List.foldl_cons, List.foldl_cons, ih]
    congr 1
    rw [alist_find_insert]
    by_cases h : d.id = i
    · rw [if_pos h.symm, if_pos h]
    · rw [if_neg (fun hh => h hh.symm), if_neg h]

/-! ## Inverted-index cell characterization -/

theorem index_entry_set (idx : Index) (t₀ i₀ : String) (c : Nat) (t i : String) :
    index_entry (index_set idx t₀ i₀ c) t i
      = if t = t₀ then (if i = i₀ then some c else index_entry idx t i)
        else index_entry idx t i := by
  unfold index_entry index_set
  rw [alist_find_insert]
  by_cases ht : t = t₀
  · subst ht
    rw [if_pos rfl, if_pos rfl, Option.getD_some, alist_find_insert]
  · rw [if_neg ht, if_neg ht]

theorem index_entry_terms_fold (idx : Index) (i₀ : String) (toks : List String)
    (terms : List String) (hnd : terms.Nodup) (t i : String) :
    index_entry (terms.foldl (fun acc t₂ => index_set acc t₂ i₀ (toks.count t₂)) idx) t i
      = if t ∈ terms ∧ i = i₀ then some (toks.count t) else index_entry idx t i := by
  induction terms generalizing idx with
  | nil => simp
  | cons t₀ rest ih =>
    obtain ⟨hout, hndr⟩ := List.nodup_cons.mp hnd
    rw [List.foldl_cons, ih _ hndr, index_entry_set]
    by_cases hm : t ∈ rest
    · have hne : t ≠ t₀ := fun h => hout (h ▸ hm)
      by_cases hi : i = i₀
      · simp [hm, hi, hne]
      · simp [hm, hi, hne]
    · by_cases ht : t = t₀
      · subst ht
        by_cases hi : i = i₀
        · simp [hm, hi]
        · simp [hm, hi]
      · simp [hm, ht]

theorem index_entry_add_doc (idx : Index) (i₀ : String) (toks : List String)
    (t i : String) :
    index_entry (index_add_doc idx i₀ toks) t i
      = if i = i₀ ∧ 0 < toks.count t then some (toks.count t)
        else index_entry idx t i := by
  unfold index_add_doc
  rw [index_entry_terms_fold idx i₀ toks toks.dedup (List.nodup_dedup toks) t i]
  by_cases hm : t ∈ toks
  · by_cases hi : i = i₀
    · simp [hm, hi, List.count_pos_iff.mpr hm]
    · simp [hm, hi]
  · have : toks.count t = 0 := List.count_eq_zero.mpr hm
    simp [hm, this]

theorem index_entry_build_fold (docs : List Doc) (idx₀ : Index) (t i : String) :
    index_entry
        (docs.foldl (fun idx d => index_add_doc idx d.id (preprocessing_text d.text)) idx₀) t i
      = docs.foldl
          (fun a d => if i = d.id ∧ 0 < (preprocessing_text d.text).count t
            then some ((preprocessing_text d.text).count t) else a)
          (index_entry idx₀ t i) := by
  induction docs generalizing idx₀ with
  | nil => rfl
  | cons d rest ih =>
    rw [List.foldl_cons, List.foldl_cons, ih]
    congr 1
    exact index_entry_add_doc idx₀ d.id (preprocessing_text d.text) t i

theorem index_entry_empty (t i : String) : index_entry [] t i = none := rfl

theorem index_entry_build (docs : List Doc) (t i : String) :
    index_entry (build_inverted_index docs) t i
      = docs.foldl
          (fun a d => if i = d.id ∧ 0 < (preprocessing_text d.text).count t
            then some ((preprocessing_text d.text).count t) else a)
          none := by
  unfold build_inverted_index
  rw [index_entry_build_fold docs [] t i, index_entry_empty]

theorem index_entry_build_isSome (docs : List Doc) (t i : String) :
    (index_entry (build_inverted_index docs) t i).isSome
      ↔ ∃ d ∈ docs, i = d.id ∧ t ∈ preprocessing_text d.text := by
  rw [index_entry_build]
  rw [foldl_overwrite_isSome
    (fun d => i = d.id ∧ 0 < (preprocessing_text d.text).count t)
    (fun d => (preprocessing_text d.text).count t) docs none]
  simp [List.count_pos_iff]

/-! ## The ordered union building `candidate_ids` -/

theorem mem_ounion_foldl (l : List String) (acc : List String) (x : String) :
    x ∈ l.foldl ounion_step acc ↔ x ∈ acc ∨ x ∈ l := by
  induction l generalizing acc with
  | nil => simp
  | cons i rest ih =>
    rw [List.foldl_cons, ih]
    unfold ounion_step
    by_cases h : i ∈ acc
    · rw [if_pos h]
      constructor
      · rintro (ha | hr)
        · exact Or.inl ha
        · exact Or.inr (by simp [hr])
      · rintro (ha | hr)
        · exact Or.inl ha
        · rcases List.mem_cons.mp hr with rfl | hr2
          · exact Or.inl h
          · exact Or.inr hr2
    · rw [if_neg h]
      simp [List.mem_append, or_assoc, or_comm (a := x = i)]

theorem nodup_ounion_foldl (l : List String) (acc : List String) (h : acc.Nodup) :
    (l.foldl ounion_step acc).Nodup := by
  induction l generalizing acc with
  | nil => exact h
  | cons i rest ih =>
    rw [List.foldl_cons]
    apply ih
    unfold ounion_step
    by_cases hm : i ∈ acc
    · rwa [if_pos hm]
    · rw [if_neg hm]
      simpa using List.Nodup.append h (by simp) (by simpa using hm)

/-! ## Candidate selection -/

theorem get_candidates_eq (idx : Index) (qts : List String) (pds : List ProcessingDoc) :
    get_candidates_by_index idx qts pds
      = (candidate_ids_list idx qts).filterMap (fun i => alist_find (id_to_doc_dict pds) i) :=
  rfl

theorem mem_ids_union_foldl (idx : Index) (qts : List String) (acc : List String)
    (x : String) :
    x ∈ qts.foldl
        (fun acc token => (alist_keys ((alist_find idx token).getD [])).foldl ounion_step acc) acc
      ↔ x ∈ acc ∨ ∃ t ∈ qts, x ∈ alist_keys ((alist_find idx t).getD []) := by
  induction qts generalizing acc with
  | nil => simp
  | cons t rest ih =>
    rw [List.foldl_cons, ih, mem_ounion_foldl]
    constructor
    · rintro ((ha | hk) | ⟨t₂, ht₂, hk⟩)
      · exact Or.inl ha
      · exact Or.inr ⟨t, by simp, hk⟩
      · exact Or.inr ⟨t₂, by simp [ht₂], hk⟩
    · rintro (ha | ⟨t₂, ht₂, hk⟩)
      · exact Or.inl (Or.inl ha)
      · rcases List.mem_cons.mp ht₂ with rfl | hr
        · exact Or.inl (Or.inr hk)
        · exact Or.inr ⟨t₂, hr, hk⟩

theorem mem_candidate_ids (idx : Index) (qts : List String) (i : String) :
    i ∈ candidate_ids_list idx qts ↔ ∃ t ∈ qts, (index_entry idx t i).isSome := by
  unfold candidate_ids_list
  rw [mem_ids_union_foldl]
  simp only [List.not_mem_nil, false_or]
  constructor
  · rintro ⟨t, ht, hk⟩
    exact ⟨t, ht, (alist_find_isSome_iff_mem_keys _ _).mpr hk⟩
  · rintro ⟨t, ht, hk⟩
    exact ⟨t, ht, (alist_find_isSome_iff_mem_keys _ _).mp hk⟩

theorem nodup_candidate_ids (idx : Index) (qts : List String) :
    (candidate_ids_list idx qts).Nodup := by
  unfold candidate_ids_list
  have main : ∀ (l : List String) (acc : List String), acc.Nodup →
      (l.foldl
        (fun acc token => (alist_keys ((alist_find idx token).getD [])).foldl ounion_step acc)
        acc).Nodup := by
    intro l
    induction l with
    | nil => exact fun acc h => h
    | cons t rest ih =>
      intro acc h
      rw [List.foldl_cons]
      exact ih _ (nodup_ounion_foldl _ _ h)
  exact main qts [] (by simp)

theorem id_to_doc_find (pds : List ProcessingDoc) (i : String) :
    alist_find (id_to_doc_dict pds) i
      = pds.foldl (fun a d => if d.id = i then some d else a) none := by
  unfold id_to_doc_dict
  rw [alist_find_dict_fold]
  rfl

theorem id_to_doc_find_some (pds : List ProcessingDoc) (i : String) (pd : ProcessingDoc)
    (h : alist_find (id_to_doc_dict pds) i = some pd) : pd ∈ pds ∧ pd.id = i := by
  rw [id_to_doc_find] at h
  rcases foldl_overwrite_some (fun d => d.id = i) (fun d => d) pds none pd h with
    ⟨d, hd, hc, hv⟩ | hnone
  · exact ⟨hv ▸ hd, hv ▸ hc⟩
  · cases hnone

theorem id_to_doc_find_unique (pds : List ProcessingDoc) (pd : ProcessingDoc)
    (hmem : pd ∈ pds) (huniq : ∀ d' ∈ pds, d'.id = pd.id → d' = pd) :
    alist_find (id_to_doc_dict pds) pd.id = some pd := by
  rw [id_to_doc_find]
  exact foldl_overwrite_unique (fun d => d.id = pd.id) (fun d => d) pds none pd hmem rfl huniq

theorem map_id_filterMap (f : String → Option ProcessingDoc) (l : List String)
    (hf : ∀ i pd, f i = some pd → pd.id = i) :
    (l.filterMap f).map ProcessingDoc.id = l.filter (fun i => (f i).isSome) := by
  induction l with
  | nil => rfl
  | cons i rest ih =>
    rw [List.filterMap_cons]
    cases hfi : f i with
    | none => simp [List.filter_cons, hfi, ih]
    | some pd =>
      rw [List.map_cons, ih, hf i pd hfi]
      simp [List.filter_cons, hfi]

theorem nodup_map_id_candidates (idx : Index) (qts : List String)
    (pds : List ProcessingDoc) :
    ((get_candidates_by_index idx qts pds).map ProcessingDoc.id).Nodup := by
  rw [get_candidates_eq, map_id_filterMap _ _
    (fun i pd h => (id_to_doc_find_some pds i pd h).2)]
  exact (nodup_candidate_ids idx qts).filter _

/-! ## The sort order -/

theorem ranking_le_iff (a b : RankedDoc) :
    ranking_le a b = true ↔
      (b.match_count < a.match_count ∨
        (a.match_count = b.match_count ∧
          (b.total_occurrences < a.total_occurrences ∨
            (a.total_occurrences = b.total_occurrences ∧ a.id ≤ b.id)))) := by
  unfold ranking_le
  by_cases h1 : a.match_count = b.match_count
  · by_cases h2 : a.total_occurrences = b.total_occurrences
    · simp [h1, h2]
    · simp [h1, h2]
  · simp [h1]

theorem ranking_le_refl (a : RankedDoc) : ranking_le a a = true := by
  rw [ranking_le_iff]
  exact Or.inr ⟨rfl, Or.inr ⟨rfl, le_refl _⟩⟩

theorem ranking_le_total (a b : RankedDoc) : (ranking_le a b || ranking_le b a) = true := by
  rw [Bool.or_eq_true, ranking_le_iff, ranking_le_iff]
  rcases Nat.lt_trichotomy a.match_count b.match_count with h | h | h
  · exact Or.inr (Or.inl h)
  · rcases Nat.lt_trichotomy a.total_occurrences b.total_occurrences with h2 | h2 | h2
    · exact Or.inr (Or.inr ⟨h.symm, Or.inl h2⟩)
    · rcases le_total a.id b.id with h3 | h3
      · exact Or.inl (Or.inr ⟨h, Or.inr ⟨h2, h3⟩⟩)
      · exact Or.inr (Or.inr ⟨h.symm, Or.inr ⟨h2.symm, h3⟩⟩)
    · exact Or.inl (Or.inr ⟨h, Or.inl h2⟩)
  · exact Or.inl (Or.inl h)

theorem ranking_le_trans (a b c : RankedDoc) (h1 : ranking_le a b = true)
    (h2 : ranking_le b c = true) : ranking_le a c = true := by
  rw [ranking_le_iff] at h1 h2 ⊢
  rcases h1 with hm1 | ⟨he1, h1'⟩
  · rcases h2 with hm2 | ⟨he2, h2'⟩
    · exact Or.inl (by omega)
    · exact Or.inl (by omega)
  · rcases h2 with hm2 | ⟨he2, h2'⟩
    · exact Or.inl (by omega)
    · rcases h1' with ht1 | ⟨hte1, hid1⟩
      · rcases h2' with ht2 | ⟨hte2, hid2⟩
        · exact Or.inr ⟨by omega, Or.inl (by omega)⟩
        · exact Or.inr ⟨by omega, Or.inl (by omega)⟩
      · rcases h2' with ht2 | ⟨hte2, hid2⟩
        · exact Or.inr ⟨by omega, Or.inl (by omega)⟩
        · exact Or.inr ⟨by omega, Or.inr ⟨by omega, le_trans hid1 hid2⟩⟩

theorem sorted_pairwise (l : List RankedDoc) :
    (sort_ranked_docs l).Pairwise (fun a b => ranking_le a b = true) :=
  List.sorted_mergeSort ranking_le_trans ranking_le_total l

theorem sorted_perm (l : List RankedDoc) : (sort_ranked_docs l).Perm l :=
  List.mergeSort_perm l ranking_le

/-! ## Field and shape lemmas for ranking -/

theorem rank_doc_id (qts : List String) (doc : ProcessingDoc) :
    (rank_doc qts doc).id = doc.id := by
  unfold rank_doc
  by_cases h : str_contains doc.id "spam" <;> simp [h]

theorem rank_doc_spam (qts : List String) (doc : ProcessingDoc)
    (h : str_contains doc.id "spam" = true) :
    rank_doc qts doc = ⟨doc.id, doc.tokens, 0, 0⟩ := by
  unfold rank_doc
  rw [if_pos h]

theorem rank_doc_not_spam (qts : List String) (doc : ProcessingDoc)
    (h : str_contains doc.id "spam" = false) :
    rank_doc qts doc = ⟨doc.id, doc.tokens,
      (doc.tokens.filter (fun token => qts.contains token)).dedup.length,
      (doc.tokens.filter (fun token => qts.contains token)).length⟩ := by
  unfold rank_doc
  rw [if_neg (by simp [h])]

theorem map_id_calculate_rank (pds : List ProcessingDoc) (qts : List String) :
    (calculate_rank pds qts).map RankedDoc.id = pds.map ProcessingDoc.id := by
  unfold calculate_rank
  rw [List.map_map]
  exact List.map_congr_left (fun d _ => rank_doc_id qts d)

theorem search_eq_sorted (docs : List Doc) (q : String) :
    search docs q = (sorted_of docs q).map (fun d => d.id) := by
  unfold search sorted_of ranked_of candidates_of
  dsimp only
  by_cases hq : (preprocessing_text q).isEmpty
  · rw [if_pos hq]
    have hqe : preprocessing_text q = [] := List.isEmpty_iff.mp hq
    rw [hqe]
    have hc : get_candidates_by_index (build_inverted_index docs) []
        (preprocessing docs) = [] := rfl
    rw [hc]
    simp [calculate_rank, sort_ranked_docs]
  · rw [if_neg hq]
    by_cases hcand : (get_candidates_by_index (build_inverted_index docs)
        (preprocessing_text q) (preprocessing docs)).isEmpty
    · rw [if_pos hcand]
      rw [List.isEmpty_iff.mp hcand]
      simp [calculate_rank, sort_ranked_docs]
    · rw [if_neg hcand]

theorem sorted_of_perm_ranked (docs : List Doc) (q : String) :
    (sorted_of docs q).Perm (ranked_of docs q) :=
  sorted_perm (ranked_of docs q)

theorem nodup_ranked_ids (docs : List Doc) (q : String) :
    ((ranked_of docs q).map RankedDoc.id).Nodup := by
  unfold ranked_of candidates_of
  rw [map_id_calculate_rank]
  exact nodup_map_id_candidates _ _ _

theorem nodup_sorted_ids (docs : List Doc) (q : String) :
    ((sorted_of docs q).map RankedDoc.id).Nodup :=
  ((sorted_of_perm_ranked docs q).map RankedDoc.id).nodup_iff.mpr
    (nodup_ranked_ids docs q)

theorem nodup_search (docs : List Doc) (q : String) : (search docs q).Nodup := by
  rw [search_eq_sorted]
  exact nodup_sorted_ids docs q

theorem mem_search_of_mem_ranked (docs : List Doc) (q : String) (r : RankedDoc)
    (hr : r ∈ ranked_of docs q) : r.id ∈ search docs q := by
  rw [search_eq_sorted]
  exact List.mem_map.mpr ⟨r, (sorted_of_perm_ranked docs q).mem_iff.mpr hr, rfl⟩

theorem sorted_of_def (docs : List Doc) (q : String) :
    sorted_of docs q = sort_ranked_docs (ranked_of docs q) := rfl

theorem sorted_of_pairwise (docs : List Doc) (q : String) :
    (sorted_of docs q).Pairwise (fun a b => ranking_le a b = true) :=
  sorted_pairwise (ranked_of docs q)

theorem sorted_position (docs : List Doc) (q : String) (a b : RankedDoc)
    (ha : a ∈ ranked_of docs q) (hb : b ∈ ranked_of docs q)
    (hba : ranking_le b a = false) :
    a.id ∈ search docs q ∧ b.id ∈ search docs q ∧
      (search docs q).indexOf a.id < (search docs q).indexOf b.id := by
  have hout : search docs q = (sorted_of docs q).map (fun d => d.id) :=
    search_eq_sorted docs q
  have hmemA : a.id ∈ search docs q := mem_search_of_mem_ranked docs q a ha
  have hmemB : b.id ∈ search docs q := mem_search_of_mem_ranked docs q b hb
  refine ⟨hmemA, hmemB, ?_⟩
  have hne : a ≠ b := by
    rintro rfl
    rw [ranking_le_refl] at hba
    cases hba
  have hidne : a.id ≠ b.id := fun h =>
    hne (List.inj_on_of_nodup_map (nodup_ranked_ids docs q) ha hb h)
  have hlen : (search docs q).length = (sorted_of docs q).length := by
    rw [hout, List.length_map]
  have hi : (search docs q).indexOf a.id < (search docs q).length :=
    List.indexOf_lt_length.mpr hmemA
  have hj : (search docs q).indexOf b.id < (search docs q).length :=
    List.indexOf_lt_length.mpr hmemB
  have hiS : (search docs q).indexOf a.id < (sorted_of docs q).length := hlen ▸ hi
  have hjS : (search docs q).indexOf b.id < (sorted_of docs q).length := hlen ▸ hj
  have hSa : ((sorted_of docs q)[(search docs q).indexOf a.id]).id = a.id := by
    have h2 := List.getElem_of_eq hout hi
    rw [List.getElem_map] at h2
    rw [← h2]
    exact List.getElem_indexOf hi
  have hSb : ((sorted_of docs q)[(search docs q).indexOf b.id]).id = b.id := by
    have h2 := List.getElem_of_eq hout hj
    rw [List.getElem_map] at h2
    rw [← h2]
    exact List.getElem_indexOf hj
  have hSaR : (sorted_of docs q)[(search docs q).indexOf a.id] ∈ ranked_of docs q :=
    (sorted_of_perm_ranked docs q).mem_iff.mp (List.getElem_mem _)
  have hSbR : (sorted_of docs q)[(search docs q).indexOf b.id] ∈ ranked_of docs q :=
    (sorted_of_perm_ranked docs q).mem_iff.mp (List.getElem_mem _)
  have hSa2 : (sorted_of docs q)[(search docs q).indexOf a.id] = a :=
    List.inj_on_of_nodup_map (nodup_ranked_ids docs q) hSaR ha hSa
  have hSb2 : (sorted_of docs q)[(search docs q).indexOf b.id] = b :=
    List.inj_on_of_nodup_map (nodup_ranked_ids docs q) hSbR hb hSb
  rcases Nat.lt_trichotomy ((search docs q).indexOf a.id) ((search docs q).indexOf b.id)
    with h | h | h
  · exact h
  · exfalso
    apply hidne
    have h3 : (search docs q)[(search docs q).indexOf a.id]
        = (search docs q)[(search docs q).indexOf b.id] := by
      congr 1
    rw [List.getElem_indexOf hi, List.getElem_indexOf hj] at h3
    exact h3
  · exfalso
    have hp := List.pairwise_iff_getElem.mp (sorted_of_pairwise docs q) _ _ hjS hiS h
    rw [hSa2, hSb2] at hp
    rw [hp] at hba
    cases hba

/-! ## Membership in the candidate list -/

theorem mem_candidates_elim (docs : List Doc) (q : String) (pd : ProcessingDoc)
    (h : pd ∈ candidates_of docs q) :
    (∃ d ∈ docs, pd = ⟨d.id, preprocessing_text d.text⟩) ∧
      (∃ t ∈ preprocessing_text q, ∃ d ∈ docs,
        pd.id = d.id ∧ t ∈ preprocessing_text d.text) := by
  unfold candidates_of at h
  rw [get_candidates_eq] at h
  obtain ⟨i, hi, hfind⟩ := List.mem_filterMap.mp h
  obtain ⟨hmem, hid⟩ := id_to_doc_find_some _ _ _ hfind
  obtain ⟨d, hd, hpd⟩ := List.mem_map.mp hmem
  constructor
  · exact ⟨d, hd, hpd.symm⟩
  · obtain ⟨t, ht, hsome⟩ := (mem_candidate_ids _ _ _).mp hi
    obtain ⟨d₂, hd₂, hid₂, htok⟩ := (index_entry_build_isSome docs t i).mp hsome
    exact ⟨t, ht, d₂, hd₂, hid.trans hid₂, htok⟩

theorem mem_candidates_intro (docs : List Doc) (q : String) (A : Doc)
    (hN : (docs.map Doc.id).Nodup) (hA : A ∈ docs) (t : String)
    (ht : t ∈ preprocessing_text q) (htok : t ∈ preprocessing_text A.text) :
    (⟨A.id, preprocessing_text A.text⟩ : ProcessingDoc) ∈ candidates_of docs q := by
  unfold candidates_of
  rw [get_candidates_eq]
  apply List.mem_filterMap.mpr
  refine ⟨A.id, ?_, ?_⟩
  · exact (mem_candidate_ids _ _ _).mpr
      ⟨t, ht, (index_entry_build_isSome docs t A.id).mpr ⟨A, hA, rfl, htok⟩⟩
  · have hmem : (⟨A.id, preprocessing_text A.text⟩ : ProcessingDoc) ∈ preprocessing docs :=
      List.mem_map.mpr ⟨A, hA, rfl⟩
    apply id_to_doc_find_unique (preprocessing docs) ⟨A.id, preprocessing_text A.text⟩ hmem
    intro d' hd' hid'
    obtain ⟨d₂, hd₂, rfl⟩ := List.mem_map.mp hd'
    have : d₂ = A := List.inj_on_of_nodup_map hN hd₂ hA hid'
    rw [this]

/-! ## Counting lemmas: the rank fields in the spec's vocabulary -/

theorem found_dedup_length_eq_card (toks qts : List String) :
    ((toks.filter (fun token => qts.contains token)).dedup).length
      = (qts.toFinset.filter (fun t => t ∈ toks)).card := by
  rw [← List.card_toFinset, List.toFinset_filter]
  congr 1
  ext x
  simp [and_comm]

theorem found_length_eq_sum (toks qts : List String) :
    (toks.filter (fun token => qts.contains token)).length
      = ∑ t in qts.toFinset, toks.count t := by
  induction toks with
  | nil => simp
  | cons x rest ih =>
    rw [List.filter_cons]
    have hcount : ∀ t, (x :: rest).count t = rest.count t + if x = t then 1 else 0 := by
      intro t
      rw [List.count_cons]
      simp [beq_iff_eq]
    rw [Finset.sum_congr rfl (fun t _ => hcount t), Finset.sum_add_distrib,
      Finset.sum_ite_eq qts.toFinset x (fun _ => 1)]
    by_cases hx : x ∈ qts
    · rw [if_pos (by simpa using hx), if_pos (List.mem_toFinset.mpr hx), List.length_cons, ih]
    · rw [if_neg (by simpa using hx), if_neg (fun hc => hx (List.mem_toFinset.mp hc)), ih]
      omega

theorem rank_doc_eq_spec (qts : List String) (doc : ProcessingDoc) :
    rank_doc qts doc = spec_rank_doc qts doc := by
  unfold rank_doc spec_rank_doc
  by_cases h : str_contains doc.id "spam"
  · rw [if_pos h, if_pos h]
  · rw [if_neg h, if_neg h]
    dsimp only
    rw [found_dedup_length_eq_card doc.tokens qts, found_length_eq_sum doc.tokens qts]

/-! ## Claim C1 -/

/-- C1, counterexample: the claim says the final ranking orders candidates by
the TF-IDF score `sum over distinct query tokens of tf * (ln((N+1)/(df+1))+1)`
in descending order.  On the two-document corpus `cex_docs` with query
"aaaa bbbb", document "1" strictly outscores document "2" under that formula
(score 5 versus 2 + ln(3/2) < 5), yet `search` returns ["2", "1"], i.e. ranks
document "1" last.  So the score the code ranks by is not the claimed
TF-IDF sum. -/
theorem C1_counterexample :
    search cex_docs "aaaa bbbb" = ["2", "1"] ∧
      tfidf_gt cex_docs "aaaa bbbb" cex_doc1 cex_doc2 := by
  constructor
  · rw [search_eq_sorted, sorted_of_def]
    have h1 : ranked_of cex_docs "aaaa bbbb"
        = [⟨"1", ["aaaa", "aaaa", "aaaa", "aaaa", "aaaa"], 1, 5⟩,
           ⟨"2", ["aaaa", "bbbb"], 2, 2⟩] := by decide
    rw [h1]
    simp [sort_ranked_docs, List.mergeSort, List.merge, ranking_le]
  · unfold tfidf_gt
    have hq : (preprocessing_text "aaaa bbbb").dedup = ["aaaa", "bbbb"] := by decide
    have h1 : (preprocessing_text cex_doc1.text).count "aaaa" = 5 := by decide
    have h2 : (preprocessing_text cex_doc1.text).count "bbbb" = 0 := by decide
    have h3 : (preprocessing_text cex_doc2.text).count "aaaa" = 1 := by decide
    have h4 : (preprocessing_text cex_doc2.text).count "bbbb" = 1 := by decide
    have hdf1 : doc_freq cex_docs "aaaa" = 2 := by decide
    have hdf2 : doc_freq cex_docs "bbbb" = 1 := by decide
    have hN : cex_docs.length = 2 := rfl
    rw [hq]
    simp only [List.map_cons, List.map_nil, List.sum_cons, List.sum_nil,
      h1, h2, h3, h4, hdf1, hdf2, hN]
    have hlog0 : Real.log ((((2:ℕ):ℝ) + 1) / (((2:ℕ):ℝ) + 1)) = 0 := by
      norm_num
    have hlog2 : Real.log ((((2:ℕ):ℝ) + 1) / (((1:ℕ):ℝ) + 1)) ≤ 1/2 := by
      have h := Real.log_le_sub_one_of_pos (x := ((3:ℝ)/2)) (by norm_num)
      have : ((((2:ℕ):ℝ) + 1) / (((1:ℕ):ℝ) + 1)) = (3:ℝ)/2 := by norm_num
      rw [this]
      linarith
    rw [hlog0]
    push_cast
    nlinarith [hlog2]

/-- C1, amended: the relevance rank of a candidate is not the TF-IDF sum but
the pair `(match_count, total_occurrences)` — for a non-spam candidate, the
number of distinct query tokens occurring in the document and the total
number of occurrences of query tokens in it (summed over distinct query
tokens); a spam candidate gets `(0, 0)`.  The final ranking orders
candidates by this pair (descending lexicographically, ties by identifier):
`search` equals the sort of the candidates ranked by `spec_rank_doc`, the
spec-vocabulary restatement of that pair. -/
theorem C1_amended_pair_ranking (docs : List Doc) (q : String) :
    search docs q
      = (sort_ranked_docs ((candidates_of docs q).map
          (spec_rank_doc (preprocessing_text q)))).map (fun d => d.id) := by
  rw [search_eq_sorted]
  unfold sorted_of ranked_of calculate_rank
  rw [List.map_congr_left (fun pd _ => rank_doc_eq_spec (preprocessing_text q) pd)]

/-! ## Claim C3 -/

/-- C3: the output of `search` is the identifier sequence of the sorted
ranked list, and that list is pairwise ordered by: strictly greater score
pair first, and among equal score pairs ascending identifier.  In particular
two documents with identical computed scores always appear in ascending
identifier order, so the ordering is deterministic. -/
theorem C3_sorted_output (docs : List Doc) (q : String) :
    search docs q = (sorted_of docs q).map (fun d => d.id) ∧
      (sorted_of docs q).Pairwise final_order := by
  refine ⟨search_eq_sorted docs q, ?_⟩
  have hpair := sorted_of_pairwise docs q
  have hne : (sorted_of docs q).Pairwise (fun a b => a.id ≠ b.id) :=
    List.pairwise_map.mp (nodup_sorted_ids docs q)
  refine (hpair.and hne).imp ?_
  intro a b hab
  obtain ⟨hle, hne2⟩ := hab
  rw [ranking_le_iff] at hle
  unfold final_order score_gt
  rcases hle with h | ⟨he, h2⟩
  · exact Or.inl (Or.inl h)
  · rcases h2 with h2 | ⟨hte, hid⟩
    · exact Or.inl (Or.inr ⟨he, h2⟩)
    · exact Or.inr ⟨he, hte, lt_of_le_of_ne hid hne2⟩

/-! ## Claim C4 -/

/-- C4: every identifier in the output of `search` is the identifier of some
input document, and the output has no duplicate identifiers — also when the
input itself contains duplicate identifiers. -/
theorem C4_subsequence_no_dup (docs : List Doc) (q : String) :
    (search docs q).Nodup ∧ ∀ i ∈ search docs q, i ∈ docs.map Doc.id := by
  refine ⟨nodup_search docs q, ?_⟩
  intro i hi
  rw [search_eq_sorted] at hi
  obtain ⟨r, hrS, hid⟩ := List.mem_map.mp hi
  have hrR : r ∈ ranked_of docs q := (sorted_of_perm_ranked docs q).mem_iff.mp hrS
  unfold ranked_of calculate_rank at hrR
  obtain ⟨pd, hpd, hr⟩ := List.mem_map.mp hrR
  obtain ⟨⟨d, hd, hpd_eq⟩, -⟩ := mem_candidates_elim docs q pd hpd
  have hpid : pd.id = d.id := by rw [hpd_eq]
  subst hr
  rw [← hid, rank_doc_id, hpid]
  exact List.mem_map.mpr ⟨d, hd, rfl⟩

theorem ranked_spam_fields (docs : List Doc) (q : String) (r : RankedDoc)
    (hr : r ∈ ranked_of docs q) (hs : str_contains r.id "spam" = true) :
    r.match_count = 0 ∧ r.total_occurrences = 0 := by
  unfold ranked_of calculate_rank at hr
  obtain ⟨pd, hpd, hrq⟩ := List.mem_map.mp hr
  subst hrq
  rw [rank_doc_id] at hs
  rw [rank_doc_spam _ _ hs]
  exact ⟨rfl, rfl⟩

/-! ## Claim C2 -/

/-- C2: a candidate whose identifier contains the substring "spam" gets its
rank forced to exactly `(0, 0)` yet still appears in the final output; it
never precedes a non-spam document whose rank is positive; and two spam
documents appear in ascending identifier order. -/
theorem C2_spam_demotion (docs : List Doc) (q : String) :
    (∀ pd ∈ candidates_of docs q, str_contains pd.id "spam" = true →
      rank_doc (preprocessing_text q) pd = ⟨pd.id, pd.tokens, 0, 0⟩ ∧
        pd.id ∈ search docs q) ∧
    (∀ s n : RankedDoc, s ∈ ranked_of docs q → n ∈ ranked_of docs q →
      str_contains s.id "spam" = true → str_contains n.id "spam" = false →
      0 < n.match_count →
      (search docs q).indexOf n.id < (search docs q).indexOf s.id) ∧
    (∀ a b : RankedDoc, a ∈ ranked_of docs q → b ∈ ranked_of docs q →
      str_contains a.id "spam" = true → str_contains b.id "spam" = true →
      a.id < b.id →
      (search docs q).indexOf a.id < (search docs q).indexOf b.id) := by
  refine ⟨?_, ?_, ?_⟩
  · intro pd hpd hs
    refine ⟨rank_doc_spam _ _ hs, ?_⟩
    have hmem : rank_doc (preprocessing_text q) pd ∈ ranked_of docs q := by
      unfold ranked_of calculate_rank
      exact List.mem_map.mpr ⟨pd, hpd, rfl⟩
    have := mem_search_of_mem_ranked docs q _ hmem
    rwa [rank_doc_id] at this
  · intro s n hsR hnR hs hn hpos
    obtain ⟨hmc, -⟩ := ranked_spam_fields docs q s hsR hs
    have hba : ranking_le s n = false := by
      rw [Bool.eq_false_iff]
      intro hle
      rw [ranking_le_iff] at hle
      rcases hle with h | ⟨he, -⟩ <;> omega
    exact (sorted_position docs q n s hnR hsR hba).2.2
  · intro a b haR hbR hsa hsb hab
    obtain ⟨hmca, hta⟩ := ranked_spam_fields docs q a haR hsa
    obtain ⟨hmcb, htb⟩ := ranked_spam_fields docs q b hbR hsb
    have hba : ranking_le b a = false := by
      rw [Bool.eq_false_iff]
      intro hle
      rw [ranking_le_iff] at hle
      rcases hle with h | ⟨-, h2 | ⟨-, hid⟩⟩
      · omega
      · omega
      · exact absurd hid (not_le.mpr hab)
    exact (sorted_position docs q a b haR hbR hba).2.2

/-! ## Claim C5 -/

/-- C5: a document sharing no token with the query never appears in the
output (stated for all documents carrying its identifier, so it also covers
duplicated identifiers); a query that tokenizes to the empty sequence
returns the empty list; and the spec's concrete example: a document
containing only "shooter" is excluded for the query "shoot". -/
theorem C5_no_overlap_excluded (docs : List Doc) (q : String) :
    (∀ i : String,
      (∀ d ∈ docs, d.id = i →
        ∀ t ∈ preprocessing_text q, t ∉ preprocessing_text d.text) →
      i ∉ search docs q) ∧
    (preprocessing_text q = [] → search docs q = []) ∧
    search [⟨"doc3", "your shooter."⟩] "shoot" = [] := by
  refine ⟨?_, ?_, by decide⟩
  · intro i hno hi
    rw [search_eq_sorted] at hi
    obtain ⟨r, hrS, hid⟩ := List.mem_map.mp hi
    have hrR : r ∈ ranked_of docs q := (sorted_of_perm_ranked docs q).mem_iff.mp hrS
    unfold ranked_of calculate_rank at hrR
    obtain ⟨pd, hpd, hr⟩ := List.mem_map.mp hrR
    obtain ⟨-, t, ht, d, hd, hpdid, htok⟩ := mem_candidates_elim docs q pd hpd
    have hdid : d.id = i := by
      rw [← hpdid, ← rank_doc_id (preprocessing_text q) pd, hr, hid]
    exact hno d hd hdid t ht htok
  · intro h
    unfold search
    dsimp only
    rw [h]
    rfl

/-- Witness for C2 at a concrete corpus: one good document and two spam
documents all matching the query "aaaa". -/
theorem C2_spam_demotion_witness :
    (⟨"spammy1", ["aaaa"]⟩ : ProcessingDoc) ∈
        candidates_of [⟨"spammy1", "aaaa"⟩, ⟨"good", "aaaa"⟩, ⟨"spammy2", "aaaa"⟩] "aaaa" ∧
    "spammy1" ∈ search [⟨"spammy1", "aaaa"⟩, ⟨"good", "aaaa"⟩, ⟨"spammy2", "aaaa"⟩] "aaaa" ∧
    (search [⟨"spammy1", "aaaa"⟩, ⟨"good", "aaaa"⟩, ⟨"spammy2", "aaaa"⟩] "aaaa").indexOf "good"
      < (search [⟨"spammy1", "aaaa"⟩, ⟨"good", "aaaa"⟩, ⟨"spammy2", "aaaa"⟩] "aaaa").indexOf
          "spammy1" ∧
    (search [⟨"spammy1", "aaaa"⟩, ⟨"good", "aaaa"⟩, ⟨"spammy2", "aaaa"⟩] "aaaa").indexOf
        "spammy1"
      < (search [⟨"spammy1", "aaaa"⟩, ⟨"good", "aaaa"⟩, ⟨"spammy2", "aaaa"⟩] "aaaa").indexOf
          "spammy2" := by
  have h1 := (C2_spam_demotion
      [⟨"spammy1", "aaaa"⟩, ⟨"good", "aaaa"⟩, ⟨"spammy2", "aaaa"⟩] "aaaa").1
    ⟨"spammy1", ["aaaa"]⟩ (by decide) (by decide)
  have h2 := (C2_spam_demotion
      [⟨"spammy1", "aaaa"⟩, ⟨"good", "aaaa"⟩, ⟨"spammy2", "aaaa"⟩] "aaaa").2.1
    ⟨"spammy1", ["aaaa"], 0, 0⟩ ⟨"good", ["aaaa"], 1, 1⟩
    (by decide) (by decide) (by decide) (by decide) (by decide)
  have h3 := (C2_spam_demotion
      [⟨"spammy1", "aaaa"⟩, ⟨"good", "aaaa"⟩, ⟨"spammy2", "aaaa"⟩] "aaaa").2.2
    ⟨"spammy1", ["aaaa"], 0, 0⟩ ⟨"spammy2", ["aaaa"], 0, 0⟩
    (by decide) (by decide) (by decide) (by decide)
    (String.lt_iff_toList_lt.mpr (by decide))
  exact ⟨by decide, h1.2, h2, h3⟩

/-- Witness for C5: a document sharing no token with the query is excluded,
and the empty query returns the empty list. -/
theorem C5_no_overlap_excluded_witness :
    ("1" : String) ∉ search [⟨"1", "wxyz"⟩] "abcd" ∧ search ([] : List Doc) "" = [] := by
  constructor
  · exact (C5_no_overlap_excluded [⟨"1", "wxyz"⟩] "abcd").1 "1" (by decide)
  · exact (C5_no_overlap_excluded [] "").2.1 (by decide)

/-! ## Claim C9 -/

/-- C9: when the same identifier occurs twice in the input to the index
builder (document `A` before document `B`, `A.id = B.id`, and no later
document reuses the identifier), then for every term in both documents the
index stores the later document's count, and no cell of the identifier is
dropped: every term of either document still has a posting for it.  The
builder is a total function, so no error is raised. -/
theorem C9_last_write_wins (p m s : List Doc) (A B : Doc) (t : String)
    (hid : A.id = B.id)
    (hs : ∀ d ∈ s, d.id ≠ B.id)
    (htA : t ∈ preprocessing_text A.text) (htB : t ∈ preprocessing_text B.text) :
    index_entry (build_inverted_index (p ++ A :: (m ++ B :: s))) t B.id
      = some ((preprocessing_text B.text).count t) ∧
    ∀ t₂ : String, t₂ ∈ preprocessing_text A.text ∨ t₂ ∈ preprocessing_text B.text →
      (index_entry (build_inverted_index (p ++ A :: (m ++ B :: s))) t₂ B.id).isSome := by
  constructor
  · rw [index_entry_build, List.foldl_append, List.foldl_cons, List.foldl_append,
      List.foldl_cons]
    rw [if_pos ⟨rfl, List.count_pos_iff.mpr htB⟩]
    exact foldl_overwrite_skip
      (fun d => B.id = d.id ∧ 0 < (preprocessing_text d.text).count t)
      (fun d => (preprocessing_text d.text).count t) s _
      (fun d hd hc => hs d hd hc.1.symm)
  · intro t₂ ht₂
    rw [index_entry_build, List.foldl_append, List.foldl_cons, List.foldl_append,
      List.foldl_cons]
    rw [foldl_overwrite_isSome
      (fun d => B.id = d.id ∧ 0 < (preprocessing_text d.text).count t₂)
      (fun d => (preprocessing_text d.text).count t₂) s _]
    apply Or.inl
    rcases ht₂ with hA | hB
    · by_cases hB2 : 0 < (preprocessing_text B.text).count t₂
      · rw [if_pos ⟨rfl, hB2⟩]
        rfl
      · rw [if_neg (fun hc => hB2 hc.2)]
        rw [foldl_overwrite_isSome
          (fun d => B.id = d.id ∧ 0 < (preprocessing_text d.text).count t₂)
          (fun d => (preprocessing_text d.text).count t₂) m _]
        apply Or.inl
        rw [if_pos ⟨hid.symm, List.count_pos_iff.mpr hA⟩]
        rfl
    · rw [if_pos ⟨rfl, List.count_pos_iff.mpr hB⟩]
      rfl

/-- Witness for C9: the identifier "x" occurs twice; the index keeps the
later count 1 for the shared term "aaaa" and still has a posting for the
earlier document's term "bbbb". -/
theorem C9_last_write_wins_witness :
    index_entry (build_inverted_index [⟨"x", "aaaa aaaa bbbb"⟩, ⟨"x", "aaaa"⟩]) "aaaa" "x"
      = some 1 ∧
    (index_entry (build_inverted_index [⟨"x", "aaaa aaaa bbbb"⟩, ⟨"x", "aaaa"⟩]) "bbbb" "x").isSome := by
  have h := C9_last_write_wins [] [] [] ⟨"x", "aaaa aaaa bbbb"⟩ ⟨"x", "aaaa"⟩ "aaaa"
    rfl (by simp) (by decide) (by decide)
  constructor
  · have := h.1
    simpa using this
  · have := h.2 "bbbb" (Or.inl (by decide))
    simpa using this

/-! ## Claim C6: the tokenizer produces the maximal word-character runs -/

theorem modifyHead_id {α : Type} (l : List α) : l.modifyHead (fun x => x) = l := by
  cases l <;> rfl

theorem findWords_eq_split_runs (cs : List Char) (acc : List Char) :
    findWords cs acc
      = ((split_runs (fun c => !(isWordChar c)) cs).modifyHead
          (fun r => acc.reverse ++ r)).filter (fun r => r ≠ []) := by
  induction cs generalizing acc with
  | nil =>
    by_cases h : acc = []
    · subst h
      simp [findWords, split_runs]
    · simp [findWords, split_runs, h]
  | cons c cs ih =>
    by_cases hw : isWordChar c
    · rw [show findWords (c :: cs) acc = findWords cs (c :: acc) from by
        simp [findWords, hw]]
      rw [ih]
      rw [show split_runs (fun c => !(isWordChar c)) (c :: cs)
            = (split_runs (fun c => !(isWordChar c)) cs).modifyHead (fun r => c :: r) from by
          simp [split_runs, hw]]
      rw [List.modifyHead_modifyHead]
      have harg : (fun r => (c :: acc).reverse ++ r)
          = ((fun r => acc.reverse ++ r) ∘ fun r => c :: r) := by
        funext r
        simp
      rw [harg]
    · rw [show findWords (c :: cs) acc
            = (if acc = [] then findWords cs [] else acc.reverse :: findWords cs []) from by
          simp [findWords, hw]]
      rw [show split_runs (fun c => !(isWordChar c)) (c :: cs)
            = [] :: split_runs (fun c => !(isWordChar c)) cs from by
          simp [split_runs, hw]]
      rw [List.modifyHead_cons]
      by_cases ha : acc = []
      · subst ha
        rw [if_pos rfl, ih []]
        rw [show (([] : List Char).reverse ++ ([] : List Char)) = ([] : List Char) from rfl]
        rw [List.filter_cons_of_neg (by simp)]
        exact congrArg _ (modifyHead_id _)
      · rw [if_neg ha]
        rw [List.append_nil]
        rw [List.filter_cons_of_pos (by simp [ha])]
        rw [ih []]
        exact congrArg (fun l => acc.reverse :: l)
          (congrArg (List.filter (fun r => decide (r ≠ []))) (modifyHead_id _))

/-- C6: tokenization returns exactly the maximal word-character runs of the
lowercased input with every run shorter than 4 characters discarded, in
left-to-right order with duplicates preserved (`spec_tokenize` is the spec's
formulation); the empty string yields the empty sequence; and an input all
of whose runs are shorter than 4 characters yields the empty sequence. -/
theorem C6_tokenize_maximal_runs :
    (∀ text : String, preprocessing_text text = spec_tokenize text) ∧
    preprocessing_text "" = [] ∧
    (∀ text : String,
      (∀ r ∈ split_runs (fun c => !(isWordChar c)) (text.data.map Char.toLower),
        r.length < 4) →
      preprocessing_text text = []) := by
  have main : ∀ text : String, preprocessing_text text = spec_tokenize text := by
    intro text
    unfold preprocessing_text spec_tokenize
    rw [findWords_eq_split_runs]
    rw [show List.modifyHead (fun r => ([] : List Char).reverse ++ r)
          (split_runs (fun c => !(isWordChar c)) (text.data.map Char.toLower))
        = split_runs (fun c => !(isWordChar c)) (text.data.map Char.toLower) from
      modifyHead_id _]
    rw [List.filter_filter]
    rw [List.filter_congr (q := fun w => decide (4 ≤ w.length)) ?_]
    · rw [List.filter_map]
      rfl
    · intro x hx
      by_cases h4 : 4 ≤ x.length
      · have hne : x ≠ [] := by
          intro he
          subst he
          simp at h4
        simp [h4, hne]
      · simp [h4]
  refine ⟨main, by decide, ?_⟩
  intro text h
  rw [main text]
  unfold spec_tokenize
  apply List.filter_eq_nil_iff.mpr
  intro a ha
  obtain ⟨r, hr, rfl⟩ := List.mem_map.mp ha
  have hshort := h r hr
  have hlen : (String.mk r).length = r.length := rfl
  simp only [decide_eq_true_eq, hlen]
  omega

/-- Witness for C6: a text whose runs are all shorter than 4 characters
tokenizes to nothing, and the general characterization at a concrete text. -/
theorem C6_tokenize_maximal_runs_witness :
    preprocessing_text "ab cd!" = [] ∧
    preprocessing_text "Hello!!!! _WorlD" = spec_tokenize "Hello!!!! _WorlD" :=
  ⟨C6_tokenize_maximal_runs.2.2 "ab cd!" (by decide),
   C6_tokenize_maximal_runs.1 "Hello!!!! _WorlD"⟩

/-! ## Claim C7: case-insensitivity -/

theorem char_toNat_ofNat_of_lt (n : Nat) (h : n < 55296) : (Char.ofNat n).toNat = n := by
  rw [Char.ofNat, dif_pos (Or.inl h)]
  rfl

theorem toLower_toUpper (c : Char) :
    Char.toLower (Char.toUpper c) = Char.toLower c := by
  unfold Char.toUpper
  dsimp only
  by_cases h : 97 ≤ c.toNat ∧ c.toNat ≤ 122
  · rw [if_pos h]
    unfold Char.toLower
    dsimp only
    have hv : (Char.ofNat (c.toNat - 32)).toNat = c.toNat - 32 :=
      char_toNat_ofNat_of_lt _ (by omega)
    rw [hv]
    rw [if_pos (⟨by omega, by omega⟩ : 65 ≤ c.toNat - 32 ∧ c.toNat - 32 ≤ 90)]
    have h32 : c.toNat - 32 + 32 = c.toNat := by omega
    rw [h32, Char.ofNat_toNat]
    rw [if_neg (by omega)]
  · rw [if_neg h]

theorem toLower_toLower (c : Char) :
    Char.toLower (Char.toLower c) = Char.toLower c := by
  unfold Char.toLower
  dsimp only
  by_cases h : 65 ≤ c.toNat ∧ c.toNat ≤ 90
  · rw [if_pos h]
    have hv : (Char.ofNat (c.toNat + 32)).toNat = c.toNat + 32 :=
      char_toNat_ofNat_of_lt _ (by omega)
    rw [hv]
    rw [if_neg (by omega)]
  · rw [if_neg h]
    rw [if_neg h]

theorem pre_up_text (s : String) :
    preprocessing_text (up_text s) = preprocessing_text s := by
  unfold preprocessing_text up_text
  rw [show (String.mk (s.data.map Char.toUpper)).data = s.data.map Char.toUpper from rfl]
  rw [List.map_map]
  have hmap : s.data.map (Char.toLower ∘ Char.toUpper) = s.data.map Char.toLower :=
    List.map_congr_left (fun c _ => toLower_toUpper c)
  rw [hmap]

theorem pre_low_text (s : String) :
    preprocessing_text (low_text s) = preprocessing_text s := by
  unfold preprocessing_text low_text
  rw [show (String.mk (s.data.map Char.toLower)).data = s.data.map Char.toLower from rfl]
  rw [List.map_map]
  have hmap : s.data.map (Char.toLower ∘ Char.toLower) = s.data.map Char.toLower :=
    List.map_congr_left (fun c _ => toLower_toLower c)
  rw [hmap]

theorem search_congr (docs₁ docs₂ : List Doc) (q : String)
    (h : docs₁.map (fun d => (d.id, preprocessing_text d.text))
       = docs₂.map (fun d => (d.id, preprocessing_text d.text))) :
    search docs₁ q = search docs₂ q := by
  have hproj : ∀ (docs : List Doc),
      docs.map (fun d => (⟨d.id, preprocessing_text d.text⟩ : ProcessingDoc))
        = (docs.map (fun d => (d.id, preprocessing_text d.text))).map
            (fun p => ⟨p.1, p.2⟩) := by
    intro docs
    rw [List.map_map]
    rfl
  have hpre : preprocessing docs₁ = preprocessing docs₂ := by
    unfold preprocessing
    rw [hproj, hproj, h]
  have hfold : ∀ (docs : List Doc),
      docs.foldl (fun idx d => index_add_doc idx d.id (preprocessing_text d.text)) []
        = (docs.map (fun d => (d.id, preprocessing_text d.text))).foldl
            (fun idx p => index_add_doc idx p.1 p.2) [] := by
    intro docs
    rw [List.foldl_map]
  have hidx : build_inverted_index docs₁ = build_inverted_index docs₂ := by
    unfold build_inverted_index
    rw [hfold, hfold, h]
  unfold search
  dsimp only
  rw [hpre, hidx]

/-- C7: `search` is unchanged when the query is uppercased or lowercased,
and when any single document's body text is uppercased or lowercased
(the document is written as the middle of an arbitrary split `p ++ d :: s`,
so this covers every position in the list; identifiers stay as given). -/
theorem C7_case_insensitive (docs : List Doc) (q : String) (p s : List Doc) (d : Doc) :
    search docs (up_text q) = search docs q ∧
    search docs (low_text q) = search docs q ∧
    search (p ++ ⟨d.id, up_text d.text⟩ :: s) q = search (p ++ d :: s) q ∧
    search (p ++ ⟨d.id, low_text d.text⟩ :: s) q = search (p ++ d :: s) q := by
  refine ⟨?_, ?_, ?_, ?_⟩
  · unfold search
    dsimp only
    rw [pre_up_text]
  · unfold search
    dsimp only
    rw [pre_low_text]
  · apply search_congr
    rw [List.map_append, List.map_append, List.map_cons, List.map_cons]
    simp [pre_up_text]
  · apply search_congr
    rw [List.map_append, List.map_append, List.map_cons, List.map_cons]
    simp [pre_low_text]

/-! ## Claim C8: ranking monotonicity -/

/-- C8: in a corpus with unique identifiers, if non-spam documents `A` and
`B` share the query term `t`, `A` contains it strictly more often than `B`,
and every other term occurs equally often in both, then `A` appears at or
before `B` in the output of `search`. -/
theorem C8_monotonicity (docs : List Doc) (q : String) (A B : Doc) (t : String)
    (hN : (docs.map Doc.id).Nodup) (hA : A ∈ docs) (hB : B ∈ docs)
    (hsA : str_contains A.id "spam" = false) (hsB : str_contains B.id "spam" = false)
    (ht : t ∈ preprocessing_text q)
    (hshared : 1 ≤ (preprocessing_text B.text).count t)
    (hmore : (preprocessing_text B.text).count t < (preprocessing_text A.text).count t)
    (hothers : ∀ s : String, s ≠ t →
      (preprocessing_text A.text).count s = (preprocessing_text B.text).count s) :
    A.id ∈ search docs q ∧ B.id ∈ search docs q ∧
      (search docs q).indexOf A.id ≤ (search docs q).indexOf B.id := by
  have hmemA : t ∈ preprocessing_text A.text := List.count_pos_iff.mp (by omega)
  have hmemB : t ∈ preprocessing_text B.text := List.count_pos_iff.mp (by omega)
  have hAcand := mem_candidates_intro docs q A hN hA t ht hmemA
  have hBcand := mem_candidates_intro docs q B hN hB t ht hmemB
  set qts := preprocessing_text q with hqts
  set pdA : ProcessingDoc := ⟨A.id, preprocessing_text A.text⟩ with hpdA
  set pdB : ProcessingDoc := ⟨B.id, preprocessing_text B.text⟩ with hpdB
  have heAR : rank_doc qts pdA ∈ ranked_of docs q := by
    unfold ranked_of calculate_rank
    exact List.mem_map.mpr ⟨pdA, hAcand, rfl⟩
  have heBR : rank_doc qts pdB ∈ ranked_of docs q := by
    unfold ranked_of calculate_rank
    exact List.mem_map.mpr ⟨pdB, hBcand, rfl⟩
  have heA : rank_doc qts pdA = ⟨A.id, preprocessing_text A.text,
      (qts.toFinset.filter (fun s => s ∈ preprocessing_text A.text)).card,
      ∑ s in qts.toFinset, (preprocessing_text A.text).count s⟩ := by
    rw [rank_doc_eq_spec]
    unfold spec_rank_doc
    rw [if_neg (by simp [hpdA, hsA])]
  have heB : rank_doc qts pdB = ⟨B.id, preprocessing_text B.text,
      (qts.toFinset.filter (fun s => s ∈ preprocessing_text B.text)).card,
      ∑ s in qts.toFinset, (preprocessing_text B.text).count s⟩ := by
    rw [rank_doc_eq_spec]
    unfold spec_rank_doc
    rw [if_neg (by simp [hpdB, hsB])]
  have hmc : (qts.toFinset.filter (fun s => s ∈ preprocessing_text A.text)).card
      = (qts.toFinset.filter (fun s => s ∈ preprocessing_text B.text)).card := by
    congr 1
    apply Finset.filter_congr
    intro s hs
    by_cases hst : s = t
    · subst hst
      simp [hmemA, hmemB]
    · have := hothers s hst
      constructor
      · intro hmem
        have := List.count_pos_iff.mpr hmem
        simp only [decide_eq_true_eq] at *
        exact List.count_pos_iff.mp (by omega)
      · intro hmem
        have := List.count_pos_iff.mpr hmem
        simp only [decide_eq_true_eq] at *
        exact List.count_pos_iff.mp (by omega)
  have hsplitA := Finset.add_sum_erase qts.toFinset
    (fun s => (preprocessing_text A.text).count s) (List.mem_toFinset.mpr ht)
  have hsplitB := Finset.add_sum_erase qts.toFinset
    (fun s => (preprocessing_text B.text).count s) (List.mem_toFinset.mpr ht)
  have herase : ∑ s in qts.toFinset.erase t, (preprocessing_text A.text).count s
      = ∑ s in qts.toFinset.erase t, (preprocessing_text B.text).count s :=
    Finset.sum_congr rfl (fun s hs => hothers s (Finset.ne_of_mem_erase hs))
  dsimp only at hsplitA hsplitB
  have htot : ∑ s in qts.toFinset, (preprocessing_text B.text).count s
      < ∑ s in qts.toFinset, (preprocessing_text A.text).count s := by
    omega
  have hfalse : ranking_le (rank_doc qts pdB) (rank_doc qts pdA) = false := by
    rw [Bool.eq_false_iff]
    intro hle
    rw [ranking_le_iff] at hle
    rw [heA, heB] at hle
    dsimp only at hle
    rcases hle with h | ⟨he, h2 | ⟨hte, -⟩⟩
    · omega
    · omega
    · omega
  obtain ⟨hoA, hoB, hidx⟩ := sorted_position docs q _ _ heAR heBR hfalse
  rw [rank_doc_id] at hoA hoB
  rw [rank_doc_id, rank_doc_id] at hidx
  exact ⟨hoA, hoB, le_of_lt hidx⟩

/-- Witness for C8: document "A" has two occurrences of "aaaa", document
"B" has one; "A" is ranked at or before "B". -/
theorem C8_monotonicity_witness :
    "A" ∈ search [⟨"A", "aaaa aaaa"⟩, ⟨"B", "aaaa"⟩] "aaaa" ∧
    "B" ∈ search [⟨"A", "aaaa aaaa"⟩, ⟨"B", "aaaa"⟩] "aaaa" ∧
    (search [⟨"A", "aaaa aaaa"⟩, ⟨"B", "aaaa"⟩] "aaaa").indexOf "A"
      ≤ (search [⟨"A", "aaaa aaaa"⟩, ⟨"B", "aaaa"⟩] "aaaa").indexOf "B" := by
  have hothers : ∀ s : String, s ≠ "aaaa" →
      (preprocessing_text (Doc.mk "A" "aaaa aaaa").text).count s
        = (preprocessing_text (Doc.mk "B" "aaaa").text).count s := by
    intro s hs
    rw [show preprocessing_text (Doc.mk "A" "aaaa aaaa").text = ["aaaa", "aaaa"] from by
        decide]
    rw [show preprocessing_text (Doc.mk "B" "aaaa").text = ["aaaa"] from by decide]
    simp [List.count_cons_of_ne hs]
  exact C8_monotonicity [⟨"A", "aaaa aaaa"⟩, ⟨"B", "aaaa"⟩] "aaaa"
    ⟨"A", "aaaa aaaa"⟩ ⟨"B", "aaaa"⟩ "aaaa" (by decide) (by decide) (by decide)
    (by decide) (by decide) (by decide) (by decide) (by decide) hothers

/-! ## Claim C10: dataclass and dict records are interchangeable -/

theorem any_id_encode (b : Bool) (d : Doc) : any_id (encode_doc b d) = some d.id := by
  cases b
  · rfl
  · show (if ("id" : String) = "id" then some d.id else
        if ("id" : String) = "text" then some d.text else none) = some d.id
    rw [if_pos rfl]

theorem any_text_encode (b : Bool) (d : Doc) : any_text (encode_doc b d) = some d.text := by
  cases b
  · rfl
  · show (if ("text" : String) = "id" then some d.id else
        if ("text" : String) = "text" then some d.text else none) = some d.text
    rw [if_neg (by decide), if_pos rfl]

theorem preprocessing_any_encode (ds : List Doc) (bs : List Bool)
    (h : bs.length = ds.length) :
    preprocessing_any (List.zipWith encode_doc bs ds) = some (preprocessing ds) := by
  induction ds generalizing bs with
  | nil =>
    rw [List.zipWith_nil_right]
    rfl
  | cons d rest ih =>
    cases bs with
    | nil => exact absurd h (by simp)
    | cons b bs =>
      have ih2 := ih bs (by simpa using h)
      unfold preprocessing_any at ih2 ⊢
      simp only [List.zipWith_cons_cons, List.mapM_cons, any_id_encode, any_text_encode,
        Option.pure_def, Option.bind_eq_bind, Option.some_bind] at ih2 ⊢
      rw [ih2]
      simp [preprocessing]

theorem build_any_encode (ds : List Doc) (bs : List Bool) (h : bs.length = ds.length)
    (idx : Index) :
    (List.zipWith encode_doc bs ds).foldlM (fun idx d => do
        let i ← any_id d
        let t ← any_text d
        pure (index_add_doc idx i (preprocessing_text t))) idx
      = some (ds.foldl
          (fun idx d => index_add_doc idx d.id (preprocessing_text d.text)) idx) := by
  induction ds generalizing bs idx with
  | nil => simp
  | cons d rest ih =>
    cases bs with
    | nil => exact absurd h (by simp)
    | cons b bs =>
      simp only [List.zipWith_cons_cons, List.foldlM_cons, any_id_encode, any_text_encode,
        Option.pure_def, Option.bind_eq_bind, Option.some_bind, List.foldl_cons]
      exact ih bs (by simpa using h) _

theorem build_inverted_index_any_encode (ds : List Doc) (bs : List Bool)
    (h : bs.length = ds.length) :
    build_inverted_index_any (List.zipWith encode_doc bs ds)
      = some (build_inverted_index ds) := by
  unfold build_inverted_index_any build_inverted_index
  exact build_any_encode ds bs h []

/-- C10: replacing any mixture of `Doc` dataclass records by the dictionary
`{"id": ..., "text": ...}` with the same field values (the mixture chosen by
the boolean mask `bs`) makes `search_any` return exactly the typed `search`
result — so the output does not depend on which record shape each document
uses. -/
theorem C10_dict_record_equivalence (ds : List Doc) (bs : List Bool) (q : String)
    (h : bs.length = ds.length) :
    search_any (List.zipWith encode_doc bs ds) q = some (search ds q) := by
  unfold search_any search
  dsimp only
  rw [preprocessing_any_encode ds bs h]
  simp only [Option.pure_def, Option.bind_eq_bind, Option.some_bind]
  by_cases hq : (preprocessing_text q).isEmpty
  · simp [hq]
  · simp only [hq, Bool.false_eq_true, if_false]
    rw [build_inverted_index_any_encode ds bs h]
    simp only [Option.some_bind]
    by_cases hc : (get_candidates_by_index (build_inverted_index ds)
        (preprocessing_text q) (preprocessing ds)).isEmpty
    · simp [hc]
    · simp [hc]

/-- Witness for C10 on a concrete two-document corpus, one record of each
shape. -/
theorem C10_dict_record_equivalence_witness :
    search_any [AnyDoc.typed ⟨"1", "hello world"⟩,
        AnyDoc.dict [("id", "3"), ("text", "world hello")]] "hello"
      = some (search [⟨"1", "hello world"⟩, ⟨"3", "world hello"⟩] "hello") := by
  have h := C10_dict_record_equivalence [⟨"1", "hello world"⟩, ⟨"3", "world hello"⟩]
    [false, true] "hello" (by decide)
  simpa [List.zipWith, encode_doc] using h
